import Mathlib

/-!
Verification development for the analysis engine of a multi-repository,
content-addressed build tool.  The definitions below shallowly embed the
C++ sources (`expression.cpp`, `target_map.cpp`, `json_file_map.hpp`);
external collaborators (the hashing primitive, the JSON parser, the
expression evaluator) are taken as parameters, and pieces of the
repository whose sources are not available (headers such as
`expression.hpp`, `utils.hpp`) are modelled from the specification and
marked as such in their doc comments.
-/

namespace JustBuild

/-- Model of the C++ `number_t` (a 64-bit `double`).  No arithmetic is
performed on numbers anywhere in the embedded code, so the finite payload
is abstracted as an integer; the non-finite values, which the spec singles
out, are explicit constructors. -/
inductive Num where
  | finite (val : Int)
  | posInf
  | negInf
  | nan
deriving DecidableEq, Repr

/-- Object types of known artifacts (`ObjectType` in the sources). -/
inductive ObjectType where
  | file
  | executable
  | tree
deriving DecidableEq, Repr

/-- Model of `ArtifactDescription`: local path, known digest, action
output, or tree (spec section 3). -/
inductive ArtifactDesc where
  | localArt (path : String) (repo : String)
  | known (digest : String) (size : Nat) (otype : ObjectType)
  | action (actionId : String) (outPath : String)
  | tree (treeId : String)
deriving DecidableEq, Repr

/-- Reference kinds of named entity names. -/
inductive RefKind where
  | target
  | file
  | tree
deriving DecidableEq, Repr

/-- Model of the C++ `Expression` tagged value.  The `target-result` and
`target-node` variants are flattened into the constructors
(`result`, `nodeValue`, `nodeAbstract`), and the two kinds of
`entity-name` are `nameNamed` and `nameAnon`.  A map is represented by its
key-sorted duplicate-free entry list (the canonical iteration order of
`map_t`); maps are created through `mkMap` below. -/
inductive Expr where
  | null
  | boolE (b : Bool)
  | numE (n : Num)
  | strE (s : String)
  | art (a : ArtifactDesc)
  | result (artifactStage : Expr) (runfiles : Expr) (provides : Expr)
      (cacheableFlag : Bool)
  | nodeValue (artifactStage : Expr) (runfiles : Expr) (provides : Expr)
      (cacheableFlag : Bool)
  | nodeAbstract (nodeType : String) (stringFields : Expr) (targetFields : Expr)
  | nameNamed (repo : String) (module : String) (target : String) (ref : RefKind)
  | nameAnon (ruleMap : Expr) (targetNode : Expr)
  | list (l : List Expr)
  | map (m : List (String × Expr))

/-- Model of the JSON values consumed and produced by the engine
(`nlohmann::json`): null, booleans, numbers, strings, arrays, objects.
Objects carry their member list; genuine `nlohmann` objects have unique,
sorted keys, which the well-formedness predicate and the canonicalisation
below account for. -/
inductive JSON where
  | null
  | boolJ (b : Bool)
  | numJ (n : Num)
  | strJ (s : String)
  | arr (l : List JSON)
  | obj (m : List (String × JSON))

/-- Lexicographic strict order on character lists, written out so that it
evaluates by kernel reduction on concrete inputs. -/
def listLtChar : List Char → List Char → Bool
  | [], [] => false
  | [], _ :: _ => true
  | _ :: _, [] => false
  | a :: as, b :: bs =>
    if a < b then true
    else if b < a then false
    else listLtChar as bs

/-- Executable strict order on strings (byte-wise comparison of the
underlying character lists, as `std::string::operator<`). -/
def strLt (a b : String) : Bool := listLtChar a.data b.data

/-- Insertion into a key-sorted association list; an entry whose key is
already present is kept unchanged (the `emplace` semantics of the C++
maps: the first insertion of a key wins). -/
def insertSorted {α : Type} (k : String) (v : α) :
    List (String × α) → List (String × α)
  | [] => [(k, v)]
  | (k2, v2) :: rest =>
    if strLt k k2 then (k, v) :: (k2, v2) :: rest
    else if k = k2 then (k2, v2) :: rest
    else (k2, v2) :: insertSorted k v rest

/-- Modelled from the spec: construction of the insertion-order-irrelevant
string-keyed map type `map_t` (its header `expression.hpp` is not among
the sources).  Entries are inserted one by one in iteration order; the
result is the key-sorted duplicate-free entry list. -/
def canonEntries {α : Type} (l : List (String × α)) : List (String × α) :=
  l.foldl (fun acc e => insertSorted e.1 e.2 acc) []

/-- Create an expression map from a list of entries in insertion order. -/
def mkMap (l : List (String × Expr)) : Expr :=
  .map (canonEntries l)

/-- Strict key order on entries of a string-keyed association list. -/
def keyLT {α : Type} (a b : String × α) : Prop := a.1 < b.1

/-! ### `Expression::IsCacheable` (`expression.cpp`, lines 113-139)

`IsCacheable` returns `false` for entity names, the stored flag for
target results, the node's own cacheability for target nodes, and
recurses through every list element and every map value, falling through
to `true` once no entry is non-cacheable.  The cacheability of a target
node itself is modelled from the spec (`TargetNode::IsCacheable` lives in
a header that is not among the sources): a value node is cacheable iff
its result is, an abstract node iff its string and target fields are
fully cacheable. -/

mutual

def isCacheable : Expr → Bool
  | .null => true
  | .boolE _ => true
  | .numE _ => true
  | .strE _ => true
  | .art _ => true
  | .result _ _ _ c => c
  | .nodeValue _ _ _ c => c
  | .nodeAbstract _ sf tf => isCacheable sf && isCacheable tf
  | .nameNamed _ _ _ _ => false
  | .nameAnon _ _ => false
  | .list l => listCacheable l
  | .map m => entriesCacheable m

def listCacheable : List Expr → Bool
  | [] => true
  | e :: rest => isCacheable e && listCacheable rest

def entriesCacheable : List (String × Expr) → Bool
  | [] => true
  | (_, v) :: rest => isCacheable v && entriesCacheable rest

end

/-! ### JSON serialisation (`Expression::ToJson`, `ToString`)

`ToJson` (`expression.cpp`, lines 60-111) maps each variant to JSON; the
serialisers of the opaque leaf variants (`ArtifactDescription::ToJson`,
`TargetNode::ToJson`, `EntityName::ToJson`) live in headers that are not
among the sources and are modelled from the spec's description of the
variants; no claim depends on their exact shape.  `ToString` is
`ToJson().dump()`; the textual dump of `nlohmann::json` is modelled in
compact form (string escaping and float formatting are abstracted, again
not load-bearing for any claim). -/

inductive JsonMode where
  | serializeAll
  | serializeAllButNodes
  | nullForNonJson
deriving DecidableEq, Repr

/-- Modelled dump of a JSON string literal (no escaping of control
characters). -/
def quoteStr (s : String) : String := "\"" ++ s ++ "\""

/-- Modelled dump of a JSON number; `nlohmann::json` serialises non-finite
numbers as `null`. -/
def dumpNum : Num → String
  | .finite v => toString v
  | .posInf => "null"
  | .negInf => "null"
  | .nan => "null"

mutual

def dumpJson : JSON → String
  | .null => "null"
  | .boolJ b => if b then "true" else "false"
  | .numJ n => dumpNum n
  | .strJ s => quoteStr s
  | .arr l => "[" ++ dumpArr l ++ "]"
  | .obj m => "\x7b" ++ dumpObj m ++ "\x7d"

def dumpArr : List JSON → String
  | [] => ""
  | x :: rest =>
    dumpJson x ++ (if rest.isEmpty then "" else ",") ++ dumpArr rest

def dumpObj : List (String × JSON) → String
  | [] => ""
  | (k, v) :: rest =>
    quoteStr k ++ ":" ++ dumpJson v ++ (if rest.isEmpty then "" else ",") ++
      dumpObj rest

end

def refKindStr : RefKind → String
  | .target => "target"
  | .file => "file"
  | .tree => "tree"

/-- Modelled from the spec: serialisation of an artifact description
(`ArtifactDescription::ToJson` is not among the sources). -/
def artifactToJson : ArtifactDesc → JSON
  | .localArt path repo =>
    .obj [("data", .obj [("path", .strJ path), ("repository", .strJ repo)]),
          ("type", .strJ "LOCAL")]
  | .known digest size otype =>
    .obj [("data", .obj [("file_type", .strJ (match otype with
            | .file => "f" | .executable => "x" | .tree => "t")),
          ("id", .strJ digest), ("size", .numJ (.finite size))]),
          ("type", .strJ "KNOWN")]
  | .action actionId outPath =>
    .obj [("data", .obj [("id", .strJ actionId), ("path", .strJ outPath)]),
          ("type", .strJ "ACTION")]
  | .tree treeId =>
    .obj [("data", .obj [("id", .strJ treeId)]), ("type", .strJ "TREE")]

mutual

/-- `Expression::ToJson(mode)` (`expression.cpp`, lines 60-111).  The
`id` emitted for a node under `serializeAllButNodes` is `ToIdentifier()`
(the hex form of the structural hash); it is taken as the parameter
`nodeId`. -/
def exprToJson (nodeId : Expr → String) : JsonMode → Expr → JSON
  | _, .null => .null
  | _, .boolE b => .boolJ b
  | _, .numE n => .numJ n
  | _, .strE s => .strJ s
  | mode, .art a => if mode = .nullForNonJson then .null else artifactToJson a
  | mode, .result a r p _ =>
    if mode = .nullForNonJson then .null
    else
      -- the C++ builds the expression map {artifact_stage, runfiles,
      -- provides} and serialises it with mode SerializeAllButNodes;
      -- its canonical key order is artifact_stage, provides, runfiles
      .obj [("artifact_stage", exprToJson nodeId .serializeAllButNodes a),
            ("provides", exprToJson nodeId .serializeAllButNodes p),
            ("runfiles", exprToJson nodeId .serializeAllButNodes r)]
  | mode, .nodeValue a r p c =>
    match mode with
    | .nullForNonJson => .null
    | .serializeAllButNodes =>
      .obj [("id", .strJ (nodeId (.nodeValue a r p c))), ("type", .strJ "NODE")]
    | .serializeAll =>
      -- Modelled from the spec: TargetNode::ToJson of a value node
      .obj [("result",
              .obj [("artifact_stage", exprToJson nodeId .serializeAllButNodes a),
                    ("provides", exprToJson nodeId .serializeAllButNodes p),
                    ("runfiles", exprToJson nodeId .serializeAllButNodes r)]),
            ("type", .strJ "VALUE_NODE")]
  | mode, .nodeAbstract ty sf tf =>
    match mode with
    | .nullForNonJson => .null
    | .serializeAllButNodes =>
      .obj [("id", .strJ (nodeId (.nodeAbstract ty sf tf))), ("type", .strJ "NODE")]
    | .serializeAll =>
      -- Modelled from the spec: TargetNode::ToJson of an abstract node
      .obj [("node_type", .strJ ty),
            ("string_fields", exprToJson nodeId .serializeAll sf),
            ("target_fields", exprToJson nodeId .serializeAll tf),
            ("type", .strJ "ABSTRACT_NODE")]
  | mode, .nameNamed repo module target ref =>
    if mode = .nullForNonJson then .null
    else .arr [.strJ repo, .strJ module, .strJ target, .strJ (refKindStr ref)]
  | mode, .nameAnon rm tn =>
    if mode = .nullForNonJson then .null
    else
      -- Modelled from the spec: EntityName::ToJson of an anonymous name
      .obj [("rule_map", exprToJson nodeId .serializeAll rm),
            ("target_node", exprToJson nodeId .serializeAll tn)]
  | mode, .list l => .arr (jsonOfList nodeId mode l)
  | mode, .map m => .obj (jsonOfEntries nodeId mode m)

def jsonOfList (nodeId : Expr → String) : JsonMode → List Expr → List JSON
  | _, [] => []
  | mode, e :: rest => exprToJson nodeId mode e :: jsonOfList nodeId mode rest

def jsonOfEntries (nodeId : Expr → String) :
    JsonMode → List (String × Expr) → List (String × JSON)
  | _, [] => []
  | mode, (k, v) :: rest =>
    (k, exprToJson nodeId mode v) :: jsonOfEntries nodeId mode rest

end

/-- `Expression::ToString`: the dump of `ToJson()` under the default mode
`SerializeAll`. -/
def exprToString (nodeId : Expr → String) (e : Expr) : String :=
  dumpJson (exprToJson nodeId .serializeAll e)

/-! ### Structural hash (`Expression::ComputeHash`, lines 212-249)

The hashing primitive is an external collaborator; it is taken as the
parameter `run : String → String` (single-shot digest of a byte string).
The incremental hasher used for lists and maps is modelled by applying
`run` to the concatenation of the updates, which is exactly the contract
of a streaming hash. -/

/-- The sigil prepended to the serialisation when hashing an atom:
`@` artifact, `=` result, `#` node, `$` name, nothing otherwise. -/
def hashSigil : Expr → String
  | .art _ => "@"
  | .result _ _ _ _ => "="
  | .nodeValue _ _ _ _ => "#"
  | .nodeAbstract _ _ _ => "#"
  | .nameNamed _ _ _ _ => "$"
  | .nameAnon _ _ => "$"
  | _ => ""

mutual

/-- `Expression::ToHash` / `ComputeHash`: lists feed `"["` followed by the
child hashes, maps feed `"{"` followed by, per entry in key-sorted
iteration order, the digest of the key and the hash of the value; every
other variant hashes its sigil-prefixed serialisation. -/
def toHash (run : String → String) (nodeId : Expr → String) : Expr → String
  | .list l => run ("[" ++ hashOfList run nodeId l)
  | .map m => run ("\x7b" ++ hashOfEntries run nodeId m)
  | e => run (hashSigil e ++ exprToString nodeId e)

def hashOfList (run : String → String) (nodeId : Expr → String) :
    List Expr → String
  | [] => ""
  | e :: rest => toHash run nodeId e ++ hashOfList run nodeId rest

def hashOfEntries (run : String → String) (nodeId : Expr → String) :
    List (String × Expr) → String
  | [] => ""
  | (k, v) :: rest =>
    run k ++ toHash run nodeId v ++ hashOfEntries run nodeId rest

end

/-! ### `Expression::FromJson` (`expression.cpp`, lines 158-193)

The C++ recursion stores whatever the child calls return; a child can
only be the null pointer for JSON kinds outside the model (binary data),
which the final fall-through of the function covers.  The embedding
propagates that possibility through `Option`; totality on the modelled
JSON kinds is proved as claim C7. -/

mutual

def fromJson : JSON → Option Expr
  | .null => some .null
  | .boolJ b => some (.boolE b)
  | .numJ n => some (.numE n)
  | .strJ s => some (.strE s)
  | .arr l =>
    match fromJsonList l with
    | some es => some (.list es)
    | none => none
  | .obj m =>
    match fromJsonEntries m with
    | some es => some (mkMap es)
    | none => none

def fromJsonList : List JSON → Option (List Expr)
  | [] => some []
  | j :: rest =>
    match fromJson j, fromJsonList rest with
    | some e, some es => some (e :: es)
    | _, _ => none

def fromJsonEntries : List (String × JSON) → Option (List (String × Expr))
  | [] => some []
  | (k, v) :: rest =>
    match fromJson v, fromJsonEntries rest with
    | some e, some es => some ((k, e) :: es)
    | _, _ => none

end

/-! ### JSON well-formedness and canonical form

A JSON value is well-formed when every object in it has duplicate-free
keys (guaranteed for values produced by the `nlohmann` parser).  The
canonical form sorts every object by key; comparing canonical forms is
the precise meaning of "maps compared as sets" in the round-trip
property. -/

def noDupKeys : List String → Bool
  | [] => true
  | k :: rest => !(rest.contains k) && noDupKeys rest

mutual

def wfJSON : JSON → Bool
  | .null => true
  | .boolJ _ => true
  | .numJ _ => true
  | .strJ _ => true
  | .arr l => wfList l
  | .obj m => noDupKeys (m.map Prod.fst) && wfEntries m

def wfList : List JSON → Bool
  | [] => true
  | j :: rest => wfJSON j && wfList rest

def wfEntries : List (String × JSON) → Bool
  | [] => true
  | (_, v) :: rest => wfJSON v && wfEntries rest

end

mutual

def finiteNums : JSON → Bool
  | .null => true
  | .boolJ _ => true
  | .numJ n => match n with | .finite _ => true | _ => false
  | .strJ _ => true
  | .arr l => finiteNumsList l
  | .obj m => finiteNumsEntries m

def finiteNumsList : List JSON → Bool
  | [] => true
  | j :: rest => finiteNums j && finiteNumsList rest

def finiteNumsEntries : List (String × JSON) → Bool
  | [] => true
  | (_, v) :: rest => finiteNums v && finiteNumsEntries rest

end

mutual

def canonJSON : JSON → JSON
  | .null => .null
  | .boolJ b => .boolJ b
  | .numJ n => .numJ n
  | .strJ s => .strJ s
  | .arr l => .arr (canonJSONList l)
  | .obj m => .obj (canonEntries (canonJSONEntries m))

def canonJSONList : List JSON → List JSON
  | [] => []
  | j :: rest => canonJSON j :: canonJSONList rest

def canonJSONEntries : List (String × JSON) → List (String × JSON)
  | [] => []
  | (k, v) :: rest => (k, canonJSON v) :: canonJSONEntries rest

end

/-! ### The claim-side non-cacheability predicate

"Contains" recurses through every list element and every map value; the
leaves that make an expression non-cacheable are entity names, target
results whose `is_cacheable` field is false, and non-cacheable target
nodes. -/

mutual

def hasNonCacheablePart : Expr → Bool
  | .null => false
  | .boolE _ => false
  | .numE _ => false
  | .strE _ => false
  | .art _ => false
  | .result _ _ _ c => !c
  | .nodeValue _ _ _ c => !c
  | .nodeAbstract ty sf tf => !(isCacheable (.nodeAbstract ty sf tf))
  | .nameNamed _ _ _ _ => true
  | .nameAnon _ _ => true
  | .list l => listHasNC l
  | .map m => entriesHasNC m

def listHasNC : List Expr → Bool
  | [] => false
  | e :: rest => hasNonCacheablePart e || listHasNC rest

def entriesHasNC : List (String × Expr) → Bool
  | [] => false
  | (_, v) :: rest => hasNonCacheablePart v || entriesHasNC rest

end

/-! ### Lexical path normalisation (`std::filesystem::path::lexically_normal`)

The C++ code normalises map keys and module paths with the standard
library's lexical normalisation; the embedding follows the algorithm of
the C++ standard on generic-format paths: dot components are dropped, a
non-dot-dot component followed by a dot-dot is removed, a dot-dot after
the root directory is dropped, the output keeps a trailing separator
exactly when the last surviving filename is followed by removed material
or a separator, and an empty result becomes `"."`. -/

def dotdot : List Char := ['.', '.']

def splitSlash : List Char → List (List Char)
  | [] => [[]]
  | c :: rest =>
    let r := splitSlash rest
    if c = '/' then [] :: r
    else
      match r with
      | seg :: segs => (c :: seg) :: segs
      | [] => [[c]]

def pushComp (abs : Bool) (stack : List (List Char)) (c : List Char) :
    List (List Char) :=
  if c = dotdot then
    match stack with
    | [] => if abs then [] else [dotdot]
    | x :: s => if x = dotdot then c :: stack else s
  else c :: stack

def joinSlash : List (List Char) → List Char
  | [] => []
  | [c] => c
  | c :: rest => c ++ '/' :: joinSlash rest

def lexNormal (p : String) : String :=
  if p.data.isEmpty then ""
  else
    let abs := p.data.head? = some '/'
    let rawComps := (splitSlash p.data).filter (fun s => !s.isEmpty)
    let comps := rawComps.filter (fun s => s ≠ ['.'])
    let stack := comps.foldl (pushComp abs) []
    let stackR := stack.reverse
    let lastIsName :=
      (p.data.getLast? ≠ some '/') &&
        (match rawComps.getLast? with
         | some c => c ≠ ['.'] && c ≠ dotdot
         | none => false)
    let trailing :=
      (!lastIsName) && (match stack.head? with
        | some x => x ≠ dotdot
        | none => false)
    if stackR.isEmpty then (if abs then "/" else ".")
    else
      String.mk ((if abs then ['/'] else []) ++ joinSlash stackR ++
        (if trailing then ['/'] else []))

/-! ### Shared target-map data

`TargetResult`, `TargetNode` and `AnalysedTarget` as used by
`target_map.cpp`.  `Vars()` is an `unordered_set` and `Tainted()` a
`std::set`; both are modelled as finite sets of strings. -/

structure TargetResult where
  artifact_stage : Expr
  runfiles : Expr
  provides : Expr
  is_cacheable : Bool

inductive TargetNode where
  | value (r : TargetResult)
  | abstract (nodeType : String) (stringFields : Expr) (targetFields : Expr)

/-- An action description as assembled by the `ACTION` primitive:
sorted output files and directories, the command, the environment
expression, the optional failure message, the `no_cache` flag and the
inputs expression. -/
structure ActionSpec where
  outputs : List String
  output_dirs : List String
  cmd : List String
  env : Expr
  may_fail : Option String
  no_cache : Bool
  inputs : Expr

structure AnalysedTarget where
  result : TargetResult
  actions : List ActionSpec
  blobs : List String
  trees : List (List (String × ArtifactDesc))
  vars : Finset String
  tainted : Finset String

/-- Collect a list expression of strings (`none` on any other shape). -/
def listStrings : List Expr → Option (List String)
  | [] => some []
  | .strE s :: rest => (listStrings rest).map (fun ss => s :: ss)
  | _ :: _ => none

def stringList : Expr → Option (List String)
  | .list l => listStrings l
  | _ => none

/-- Modelled from the spec: `Utils::getTainted` (`utils.cpp` is not among
the sources): the evaluated `tainted` expression must be a list of
strings, which are collected into a set; any other shape fails. -/
def getTainted (taintedVal : Expr) : Option (Finset String) :=
  (stringList taintedVal).map List.toFinset

/-- The final stage of `withDependencies` (`target_map.cpp`, lines
193-729), with the evaluator abstracted: `taintedVal` is the evaluated
`tainted` expression of the target, `mainResult` the result of evaluating
the rule's defining expression (`none` models evaluation failure), and
`actions`, `blobs`, `trees` the collectors filled by the `ACTION`, `BLOB`
and `TREE` primitives.  The target's tainted set is the strings of
`taintedVal` united with the rule's `Tainted` set; analysis fails (no
`AnalysedTarget` is produced) unless every dependency's tainted set is a
subset. -/
def withDependencies (effectiveVars : Finset String) (taintedVal : Expr)
    (ruleTainted : Finset String) (deps : List AnalysedTarget)
    (mainResult : Option Expr) (actions : List ActionSpec)
    (blobs : List String) (trees : List (List (String × ArtifactDesc))) :
    Option AnalysedTarget :=
  match getTainted taintedVal with
  | none => none
  | some ts =>
    let tainted := ts ∪ ruleTainted
    if deps.all (fun d => decide (d.tainted ⊆ tainted)) then
      match mainResult with
      | some (.result a r p c) =>
        some ⟨⟨a, r, p, c⟩, actions, blobs, trees, effectiveVars, tainted⟩
      | _ => none
    else none

/-! ### Tree conflicts (`Utils::tree_conflict`)

Modelled from the spec: two entries of a path-keyed artifact map conflict
when one entry's path is a strict prefix of the other along a `/`
boundary. -/

def charsOf (s : String) : List Char := s.data

def pathsConflict (p q : String) : Bool :=
  (charsOf p ++ ['/']).isPrefixOf (charsOf q) ||
    (charsOf q ++ ['/']).isPrefixOf (charsOf p)

def findConflictWith (p : String) : List (String × Expr) → Option String
  | [] => none
  | (q, _) :: rest =>
    if pathsConflict p q then
      some (if (charsOf p ++ ['/']).isPrefixOf (charsOf q) then p else q)
    else findConflictWith p rest

/-- Modelled from the spec: `Utils::tree_conflict` returns the subtree
path on which two entries of the map conflict, if any. -/
def treeConflict : List (String × Expr) → Option String
  | [] => none
  | (p, _) :: rest =>
    match findConflictWith p rest with
    | some c => some c
    | none => treeConflict rest

/-! ### The `TREE` primitive (`target_map.cpp`, lines 527-573) -/

def artOf : Expr → Option ArtifactDesc
  | .art a => some a
  | _ => none

def isTreeArtifact : Expr → Bool
  | .art (.tree _) => true
  | _ => false

/-- Outcome of `TREE`: either the single-entry special case returned the
entry's artifact expression unchanged, or a tree was built from the
normalised path → artifact entries (its content-addressed identifier is
out of scope here). -/
inductive TreeOutcome where
  | special (a : Expr)
  | built (entries : List (String × ArtifactDesc))

/-- `std::unordered_map::emplace`: insert only when the key is absent
(the first insertion of a normalised path wins). -/
def insertIfAbsent (entries : List (String × ArtifactDesc)) (k : String)
    (a : ArtifactDesc) : List (String × ArtifactDesc) :=
  if (entries.map Prod.fst).contains k then entries else entries ++ [(k, a)]

def treeLoop (sizeGt1 : Bool) :
    List (String × Expr) → List (String × ArtifactDesc) →
      Except String TreeOutcome
  | [], acc => .ok (.built acc)
  | (inputPath, artifact) :: rest, acc =>
    match artOf artifact with
    | none =>
      .error "TREE argument has to be a map of artifacts"
    | some a =>
      let normPath := lexNormal inputPath
      if normPath = "." ∨ normPath = "" then
        if sizeGt1 then
          .error
            "input path '.' or '' for TREE is only allowed for trees with single input artifact"
        else if !(isTreeArtifact artifact) then
          .error "input path '.' or '' for TREE must be tree artifact"
        else .ok (.special artifact)
      else treeLoop sizeGt1 rest (insertIfAbsent acc normPath a)

/-- The `TREE` primitive applied to its (already evaluated) argument. -/
def treePrim : Expr → Except String TreeOutcome
  | .map m =>
    (match treeLoop (decide (m.length > 1)) m [] with
     | .error e => .error e
     | .ok (.special a) => .ok (.special a)
     | .ok (.built acc) =>
       match treeConflict m with
       | some c => .error ("TREE conflicts on subtree " ++ c)
       | none => .ok (.built acc))
  | _ => .error "TREE argument has to be a map of artifacts"

/-! ### The `ACTION` primitive (`target_map.cpp`, lines 353-513) -/

/-- `ReadActionOutputExpr` (`target_map.cpp`, lines 21-42): the evaluated
`outs`/`out_dirs` argument must be a list of strings. -/
def readActionOutputExpr (e : Expr) (fieldName : String) :
    Except String (List String) :=
  match e with
  | .list l =>
    match listStrings l with
    | some ss => .ok ss
    | none => .error (fieldName ++ " has to be a list of strings")
  | _ => .error (fieldName ++ " has to be a list of strings")

/-- Stable insertion sort on strings (`std::sort` of the output lists;
the order is total, so stability does not matter). -/
def insertStr (s : String) : List String → List String
  | [] => [s]
  | x :: rest => if strLt x s then x :: insertStr s rest else s :: x :: rest

def sortStrings (l : List String) : List String := l.foldr insertStr []

def isStrExpr : Expr → Bool
  | .strE _ => true
  | _ => false

/-- The `ACTION` primitive applied to its (already evaluated) arguments,
in the order the C++ checks them: `inputs` must be a map of artifacts
without tree conflict; `outs` and `out_dirs` must be lists of strings,
together non-empty and disjoint; `cmd` a non-empty list of strings;
`env` a map of strings; `may_fail` and `no_cache` lists of taint strings
covered by the rule's `Tainted` set; with a non-empty `may_fail` the
(defaulted) `fail_message` must be a string.  The action identifier (the
hash of the serialised action, `Utils::createAction`) is the parameter
`actionId`; the primitive returns the action description and the map from
each output path to the corresponding action-output artifact. -/
def actionPrim (ruleTainted : Finset String) (actionId : String)
    (inputsExp outsExp outDirsExp cmdExp envExp mayFailExp failMsgExp
      noCacheExp : Expr) : Except String (ActionSpec × Expr) :=
  match inputsExp with
  | .map inputEntries =>
    if !(inputEntries.all (fun p => (artOf p.2).isSome)) then
      .error "inputs has to be a map of Artifacts"
    else
      match treeConflict inputEntries with
      | some c => .error ("inputs conflicts on subtree " ++ c)
      | none =>
        match readActionOutputExpr outsExp "outs" with
        | .error e => .error e
        | .ok outputs =>
          match readActionOutputExpr outDirsExp "out_dirs" with
          | .error e => .error e
          | .ok outputDirs =>
            if outputs.isEmpty && outputDirs.isEmpty then
              .error "either outs or out_dirs must be specified for ACTION"
            else
              let outputsS := sortStrings outputs
              let outputDirsS := sortStrings outputDirs
              if outputsS.any (fun o => outputDirsS.contains o) then
                .error "outs and out_dirs for ACTION must be disjoint"
              else
                match cmdExp with
                | .list cmdList =>
                  if cmdList.isEmpty then
                    .error "cmd must not be an empty list"
                  else
                    match listStrings cmdList with
                    | none => .error "cmd has to be a list of strings"
                    | some cmd =>
                      match envExp with
                      | .map envEntries =>
                        if !(envEntries.all (fun p => isStrExpr p.2)) then
                          .error "env has to be a map of string"
                        else
                          match mayFailExp with
                          | .list mfList =>
                            match listStrings mfList with
                            | none =>
                              .error "may_fail has to be a list of strings"
                            | some mfs =>
                              if !(mfs.all
                                  (fun s => decide (s ∈ ruleTainted))) then
                                .error
                                  "may_fail contains entry the rule is not tainted with"
                              else
                                match
                                  (if mfs.isEmpty then
                                    Except.ok (Option.none)
                                  else
                                    match failMsgExp with
                                    | .strE msg => Except.ok (some msg)
                                    | _ =>
                                      Except.error
                                        "fail_message has to evaluate to a string")
                                with
                                | .error e => .error e
                                | .ok mayFail =>
                                  match noCacheExp with
                                  | .list ncList =>
                                    match listStrings ncList with
                                    | none =>
                                      .error
                                        "no_cache has to be a list of strings"
                                    | some ncs =>
                                      if !(ncs.all
                                          (fun s =>
                                            decide (s ∈ ruleTainted))) then
                                        .error
                                          "no_cache contains entry the rule is not tainted with"
                                      else
                                        .ok
                                          (⟨outputsS, outputDirsS, cmd, envExp,
                                            mayFail, !ncs.isEmpty, inputsExp⟩,
                                           mkMap
                                             ((outputsS ++ outputDirsS).map
                                               (fun o =>
                                                 (o, Expr.art
                                                   (.action actionId o)))))
                                  | _ =>
                                    .error "no_cache has to be a list of strings"
                          | _ => .error "may_fail has to be a list of strings"
                      | _ => .error "env has to be a map of string"
                | _ => .error "cmd has to be a list of strings"
  | _ => .error "inputs has to be a map of artifacts"

/-! ### `withTargetNode` (`target_map.cpp`, lines 1198-1275) -/

def lookupStr {α : Type} : List (String × α) → String → Option α
  | [], _ => none
  | (k, v) :: rest, key => if k = key then some v else lookupStr rest key

/-- How the analysis of an anonymous target proceeds: a value node yields
an analysed target immediately (no dependency requests); an abstract node
resolves its node type in the rule map and requests that rule, failing if
the type cannot be resolved. -/
inductive NodeDispatch where
  | immediate (t : AnalysedTarget)
  | needsRule (ruleName : Expr)
  | fail

def withTargetNode (node : TargetNode) (ruleMapping : List (String × Expr)) :
    NodeDispatch :=
  match node with
  | .value r => .immediate ⟨r, [], [], [], ∅, ∅⟩
  | .abstract ty _ _ =>
    match lookupStr ruleMapping ty with
    | none => .fail
    | some rn => .needsRule rn

/-! ### The JSON file maps (`json_file_map.hpp`, lines 28-89) -/

/-- The file-root reader interface consumed by the JSON file maps. -/
structure FileRoot where
  isFile : String → Bool
  readFile : String → Option String

/-- Outcome of a map reader: the logger was called with `fatal` and no
value was set, or the setter was called with a value. -/
inductive MapOutcome (α : Type) where
  | fatal
  | value (v : α)

/-- `operator/` on paths as used for `module / json_file_name`. -/
def joinPath (a b : String) : String :=
  if a = "" then b else a ++ "/" ++ b

/-- The module check of the JSON file readers applied to the normalised
module path: `module.is_absolute() or *module.begin() == ".."`, that is,
a leading separator, or a first component `..` (the normal form is `..`
itself or starts with `../`). -/
def moduleOutsideRepo (m : String) : Bool :=
  (m.data.head? == some '/') || (m == "..") ||
    (['.', '.', '/'].isPrefixOf m.data)

/-- The reader of `CreateJsonFileMap<get_root, get_name, kMandatory>` for
one key, with the repository configuration (`root`, `jsonFileName`) and
the external JSON parser (`parse`; `none` models text that the parser
discards) as parameters.  The lexically normalised module path must not
be absolute and must not start with `..`; a missing file yields the empty
object when the map is not mandatory and fails otherwise; an existing
file must be readable and parse to a JSON object. -/
def jsonFileReader (kMandatory : Bool) (parse : String → Option JSON)
    (root : Option FileRoot) (jsonFileName : Option String)
    (module : String) : MapOutcome JSON :=
  match root, jsonFileName with
  | some r, some fname =>
    let m := lexNormal module
    if moduleOutsideRepo m then .fatal
    else
      let path := joinPath m fname
      if !(r.isFile path) then
        (if kMandatory then .fatal else .value (.obj []))
      else
        match r.readFile path with
        | none => .fatal
        | some content =>
          match parse content with
          | none => .fatal
          | some j =>
            match j with
            | .obj entries => .value (.obj entries)
            | _ => .fatal
  | _, _ => .fatal

/-! ## Theorems -/

/-! ### Order, sorting and canonicalisation lemmas -/

theorem keyLT_antisymm {α : Type} :
    ∀ a b : String × α, keyLT a b → keyLT b a → a = b := by
  intro a b hab hba
  exact absurd (lt_trans hab hba) (lt_irrefl _)

instance keyLT_isAntisymm {α : Type} :
    IsAntisymm (String × α) (@keyLT α) := ⟨keyLT_antisymm⟩

theorem listLtChar_iff : ∀ as bs : List Char, listLtChar as bs = true ↔ as < bs := by
  intro as
  induction as with
  | nil =>
    intro bs
    cases bs with
    | nil =>
      simp only [listLtChar]
      constructor
      · intro h
        cases h
      · intro h
        cases h
    | cons b bs =>
      simp only [listLtChar]
      constructor
      · intro _
        exact List.Lex.nil
      · intro _
        trivial
  | cons a as ih =>
    intro bs
    cases bs with
    | nil =>
      simp only [listLtChar]
      constructor
      · intro h
        cases h
      · intro h
        cases h
    | cons b bs =>
      simp only [listLtChar]
      by_cases h1 : a < b
      · rw [if_pos h1]
        constructor
        · intro _
          exact List.Lex.rel h1
        · intro _
          rfl
      · rw [if_neg h1]
        by_cases h2 : b < a
        · rw [if_pos h2]
          constructor
          · intro h
            cases h
          · intro h
            cases h with
            | cons _ => exact absurd h2 (lt_irrefl a)
            | rel hab => exact absurd hab h1
        · have hab : a = b := le_antisymm (not_lt.mp h2) (not_lt.mp h1)
          subst hab
          rw [if_neg h2, ih bs]
          constructor
          · intro h
            exact List.Lex.cons h
          · intro h
            cases h with
            | cons h3 => exact h3
            | rel hab => exact absurd hab h1

theorem strLt_iff (a b : String) : strLt a b = true ↔ a < b := by
  rw [strLt, listLtChar_iff]
  exact Iff.symm String.lt_iff_toList_lt

theorem mem_insertSorted {α : Type} (k : String) (v : α) :
    ∀ l : List (String × α), ∀ b, b ∈ insertSorted k v l →
      b = (k, v) ∨ b ∈ l := by
  intro l
  induction l with
  | nil =>
    intro b hb
    simp only [insertSorted] at hb
    simp at hb
    exact Or.inl hb
  | cons hd tl ih =>
    intro b hb
    simp only [insertSorted] at hb
    by_cases h1 : strLt k hd.1 = true
    · rw [if_pos h1] at hb
      rcases List.mem_cons.mp hb with hb | hb
      · exact Or.inl hb
      · exact Or.inr hb
    · rw [if_neg h1] at hb
      by_cases h2 : k = hd.1
      · rw [if_pos h2] at hb
        exact Or.inr hb
      · rw [if_neg h2] at hb
        rcases List.mem_cons.mp hb with hb | hb
        · rw [hb]
          exact Or.inr (List.mem_cons_self hd tl)
        · rcases ih b hb with hb2 | hb2
          · exact Or.inl hb2
          · exact Or.inr (List.mem_cons_of_mem hd hb2)

theorem insertSorted_sorted {α : Type} (k : String) (v : α) :
    ∀ l : List (String × α), l.Sorted (@keyLT α) →
      (insertSorted k v l).Sorted (@keyLT α) := by
  intro l
  induction l with
  | nil =>
    intro _
    simp only [insertSorted]
    exact List.sorted_singleton _
  | cons hd tl ih =>
    intro hs
    rw [List.sorted_cons] at hs
    obtain ⟨hhd, htl⟩ := hs
    simp only [insertSorted]
    by_cases h1 : strLt k hd.1 = true
    · have h1p : k < hd.1 := (strLt_iff k hd.1).mp h1
      rw [if_pos h1, List.sorted_cons]
      constructor
      · intro b hb
        rcases List.mem_cons.mp hb with hb | hb
        · rw [hb]
          exact h1p
        · exact lt_trans h1p (hhd b hb)
      · rw [List.sorted_cons]
        exact ⟨hhd, htl⟩
    · rw [if_neg h1]
      by_cases h2 : k = hd.1
      · rw [if_pos h2, List.sorted_cons]
        exact ⟨hhd, htl⟩
      · have h1p : ¬ k < hd.1 := fun hc => h1 ((strLt_iff k hd.1).mpr hc)
        rw [if_neg h2, List.sorted_cons]
        constructor
        · intro b hb
          rcases mem_insertSorted k v tl b hb with hb2 | hb2
          · rw [hb2]
            exact lt_of_le_of_ne (not_lt.mp h1p) (fun he => h2 he.symm)
          · exact hhd b hb2
        · exact ih htl

theorem insertSorted_perm {α : Type} (k : String) (v : α) :
    ∀ l : List (String × α), k ∉ l.map Prod.fst →
      (insertSorted k v l).Perm ((k, v) :: l) := by
  intro l
  induction l with
  | nil =>
    intro _
    simp [insertSorted]
  | cons hd tl ih =>
    intro hk
    simp only [List.map_cons, List.mem_cons] at hk
    push_neg at hk
    obtain ⟨hk1, hk2⟩ := hk
    simp only [insertSorted]
    by_cases h1 : strLt k hd.1 = true
    · rw [if_pos h1]
    · rw [if_neg h1, if_neg hk1]
      have step1 : (hd :: insertSorted k v tl).Perm (hd :: (k, v) :: tl) :=
        List.Perm.cons hd (ih hk2)
      exact step1.trans (List.Perm.swap (k, v) hd tl)

theorem foldl_insertSorted_sorted_perm {α : Type} :
    ∀ (l acc : List (String × α)), acc.Sorted (@keyLT α) →
      (acc.map Prod.fst ++ l.map Prod.fst).Nodup →
      (l.foldl (fun a e => insertSorted e.1 e.2 a) acc).Sorted (@keyLT α) ∧
      (l.foldl (fun a e => insertSorted e.1 e.2 a) acc).Perm (acc ++ l) := by
  intro l
  induction l with
  | nil =>
    intro acc hacc _
    exact ⟨hacc, by simp⟩
  | cons hd tl ih =>
    intro acc hacc hnd2
    have hhd_not_acc : hd.1 ∉ acc.map Prod.fst := by
      intro hmem
      rw [List.nodup_append] at hnd2
      exact hnd2.2.2 hmem (by simp)
    have hins_sorted := insertSorted_sorted hd.1 hd.2 acc hacc
    have hins_perm : (insertSorted hd.1 hd.2 acc).Perm (hd :: acc) := by
      have := insertSorted_perm hd.1 hd.2 acc hhd_not_acc
      simpa using this
    have hkeys : ((insertSorted hd.1 hd.2 acc).map Prod.fst ++
        tl.map Prod.fst).Nodup := by
      have hperm_keys : ((insertSorted hd.1 hd.2 acc).map Prod.fst).Perm
          (hd.1 :: acc.map Prod.fst) := by
        simpa using hins_perm.map Prod.fst
      refine (List.Perm.nodup_iff (List.Perm.append hperm_keys
        (List.Perm.refl (tl.map Prod.fst)))).mpr ?_
      have hbase : (acc.map Prod.fst ++ hd.1 :: tl.map Prod.fst).Nodup := by
        simpa using hnd2
      have hswap : ((hd.1 :: acc.map Prod.fst) ++ tl.map Prod.fst).Perm
          (acc.map Prod.fst ++ hd.1 :: tl.map Prod.fst) := by
        simpa using
          (@List.perm_middle String hd.1 (acc.map Prod.fst)
            (tl.map Prod.fst)).symm
      exact (List.Perm.nodup_iff hswap).mpr hbase
    obtain ⟨hs, hp⟩ := ih (insertSorted hd.1 hd.2 acc) hins_sorted hkeys
    refine ⟨by simpa using hs, ?_⟩
    have step1 : (tl.foldl (fun a e => insertSorted e.1 e.2 a)
        (insertSorted hd.1 hd.2 acc)).Perm (insertSorted hd.1 hd.2 acc ++ tl) :=
      hp
    have step2 : (insertSorted hd.1 hd.2 acc ++ tl).Perm ((hd :: acc) ++ tl) :=
      hins_perm.append_right tl
    have step3 : ((hd :: acc) ++ tl).Perm (acc ++ hd :: tl) := by
      simpa using (@List.perm_middle (String × α) hd acc tl).symm
    simpa using (step1.trans step2).trans step3

theorem canonEntries_sorted_perm {α : Type} (l : List (String × α))
    (hnd : (l.map Prod.fst).Nodup) :
    (canonEntries l).Sorted (@keyLT α) ∧ (canonEntries l).Perm l := by
  have h := foldl_insertSorted_sorted_perm l [] (by simp [List.Sorted])
    (by simpa using hnd)
  simpa [canonEntries] using h

/-- Two entry lists with the same entries (and duplicate-free keys)
canonicalise to the same map, whatever the insertion order. -/
theorem canonEntries_perm_eq {α : Type} (l₁ l₂ : List (String × α))
    (hperm : l₁.Perm l₂) (hnd : (l₁.map Prod.fst).Nodup) :
    canonEntries l₁ = canonEntries l₂ := by
  have hnd₂ : (l₂.map Prod.fst).Nodup :=
    (List.Perm.nodup_iff (hperm.map Prod.fst)).mp hnd
  obtain ⟨hs₁, hp₁⟩ := canonEntries_sorted_perm l₁ hnd
  obtain ⟨hs₂, hp₂⟩ := canonEntries_sorted_perm l₂ hnd₂
  exact List.eq_of_perm_of_sorted (hp₁.trans (hperm.trans hp₂.symm)) hs₁ hs₂

/-! ### C2: full recursion of `IsCacheable` -/

mutual

theorem isCacheable_eq_not_hasNC :
    ∀ e : Expr, isCacheable e = !(hasNonCacheablePart e)
  | .null => by simp [isCacheable, hasNonCacheablePart]
  | .boolE _ => by simp [isCacheable, hasNonCacheablePart]
  | .numE _ => by simp [isCacheable, hasNonCacheablePart]
  | .strE _ => by simp [isCacheable, hasNonCacheablePart]
  | .art _ => by simp [isCacheable, hasNonCacheablePart]
  | .result a r p c => by simp [isCacheable, hasNonCacheablePart]
  | .nodeValue a r p c => by simp [isCacheable, hasNonCacheablePart]
  | .nodeAbstract ty sf tf => by
    simp only [hasNonCacheablePart, Bool.not_not]
  | .nameNamed _ _ _ _ => by simp [isCacheable, hasNonCacheablePart]
  | .nameAnon _ _ => by simp [isCacheable, hasNonCacheablePart]
  | .list l => by
    simp only [isCacheable, hasNonCacheablePart]
    exact listCacheable_eq_not_hasNC l
  | .map m => by
    simp only [isCacheable, hasNonCacheablePart]
    exact entriesCacheable_eq_not_hasNC m

theorem listCacheable_eq_not_hasNC :
    ∀ l : List Expr, listCacheable l = !(listHasNC l)
  | [] => by simp [listCacheable, listHasNC]
  | e :: rest => by
    simp only [listCacheable, listHasNC, Bool.not_or]
    rw [isCacheable_eq_not_hasNC e, listCacheable_eq_not_hasNC rest]

theorem entriesCacheable_eq_not_hasNC :
    ∀ m : List (String × Expr), entriesCacheable m = !(entriesHasNC m)
  | [] => by simp [entriesCacheable, entriesHasNC]
  | (k, v) :: rest => by
    simp only [entriesCacheable, entriesHasNC, Bool.not_or]
    rw [isCacheable_eq_not_hasNC v, entriesCacheable_eq_not_hasNC rest]

end

/-- C2: `IsCacheable` returns `false` exactly when the expression
contains, recursing through every list element and every map value, an
entity name, a target result whose cacheable flag is false, or a
non-cacheable target node; in particular a list or map with a
non-cacheable leaf at any depth is not cacheable. -/
theorem isCacheable_false_iff_contains_nonCacheable :
    (∀ e : Expr, isCacheable e = false ↔ hasNonCacheablePart e = true)
    ∧ (∀ l : List Expr, listHasNC l = true → isCacheable (.list l) = false)
    ∧ (∀ m : List (String × Expr), entriesHasNC m = true →
        isCacheable (.map m) = false) := by
  refine ⟨?_, ?_, ?_⟩
  · intro e
    rw [isCacheable_eq_not_hasNC e]
    cases hasNonCacheablePart e <;> simp
  · intro l hl
    rw [show isCacheable (.list l) = listCacheable l from by
      simp [isCacheable]]
    rw [listCacheable_eq_not_hasNC l, hl]
    rfl
  · intro m hm
    rw [show isCacheable (.map m) = entriesCacheable m from by
      simp [isCacheable]]
    rw [entriesCacheable_eq_not_hasNC m, hm]
    rfl

/-- C2 witness: a list containing an entity name deep inside a map is not
cacheable. -/
theorem isCacheable_false_iff_contains_nonCacheable_witness :
    isCacheable
      (.list [.strE "ok",
              .map [("k", .nameNamed "repo" "mod" "tgt" .target)]]) = false := by
  apply (isCacheable_false_iff_contains_nonCacheable.1 _).mpr
  simp [hasNonCacheablePart, listHasNC, entriesHasNC]

/-! ### C7: totality of `FromJson` and non-finite numbers -/

mutual

theorem fromJson_isSome : ∀ j : JSON, (fromJson j).isSome = true
  | .null => by simp [fromJson]
  | .boolJ _ => by simp [fromJson]
  | .numJ _ => by simp [fromJson]
  | .strJ _ => by simp [fromJson]
  | .arr l => by
    have h := fromJsonList_isSome l
    simp only [fromJson]
    match hl : fromJsonList l with
    | some es => simp
    | none => rw [hl] at h; simp at h
  | .obj m => by
    have h := fromJsonEntries_isSome m
    simp only [fromJson]
    match hm : fromJsonEntries m with
    | some es => simp
    | none => rw [hm] at h; simp at h

theorem fromJsonList_isSome : ∀ l : List JSON, (fromJsonList l).isSome = true
  | [] => by simp [fromJsonList]
  | j :: rest => by
    have h1 := fromJson_isSome j
    have h2 := fromJsonList_isSome rest
    simp only [fromJsonList]
    match hj : fromJson j, hr : fromJsonList rest with
    | some e, some es => simp
    | some e, none => rw [hr] at h2; simp at h2
    | none, _ => rw [hj] at h1; simp at h1

theorem fromJsonEntries_isSome :
    ∀ m : List (String × JSON), (fromJsonEntries m).isSome = true
  | [] => by simp [fromJsonEntries]
  | (k, v) :: rest => by
    have h1 := fromJson_isSome v
    have h2 := fromJsonEntries_isSome rest
    simp only [fromJsonEntries]
    match hv : fromJson v, hr : fromJsonEntries rest with
    | some e, some es => simp
    | some e, none => rw [hr] at h2; simp at h2
    | none, _ => rw [hv] at h1; simp at h1

end

/-- C7 counterexample: on a non-finite JSON number, `FromJson` does not
return null; it wraps the non-finite number unchanged. -/
theorem fromJson_nonfinite_counterexample :
    fromJson (.numJ .posInf) = some (.numE .posInf) ∧
      ¬ fromJson (.numJ .posInf) = some .null := by
  constructor
  · simp [fromJson]
  · simp [fromJson]

/-- C7 (amended): `FromJson` is total on every modelled JSON value (it
always produces an expression), and a non-finite JSON number becomes the
corresponding number expression, not null. -/
theorem fromJson_total :
    (∀ j : JSON, (fromJson j).isSome = true)
    ∧ (∀ n : Num, fromJson (.numJ n) = some (.numE n)) := by
  refine ⟨fromJson_isSome, ?_⟩
  intro n
  simp [fromJson]

/-! ### C3: taint computation and monotonicity in `withDependencies` -/

/-- C3: when rule application succeeds, the produced target's tainted set
is the union of the strings of the evaluated `tainted` expression with
the rule's `Tainted` set, and every dependency's tainted set is a subset
of it; when some dependency's tainted set is not a subset, no
`AnalysedTarget` is produced. -/
theorem withDependencies_taint (effVars : Finset String) (tv : Expr)
    (rt : Finset String) (deps : List AnalysedTarget) (mainRes : Option Expr)
    (acts : List ActionSpec) (blobs : List String)
    (trees : List (List (String × ArtifactDesc))) (ts : List String) :
    (stringList tv = some ts →
      ∀ t, withDependencies effVars tv rt deps mainRes acts blobs trees =
          some t →
        t.tainted = ts.toFinset ∪ rt ∧ ∀ d ∈ deps, d.tainted ⊆ t.tainted)
    ∧ (stringList tv = some ts →
        (∃ d ∈ deps, ¬ d.tainted ⊆ ts.toFinset ∪ rt) →
        withDependencies effVars tv rt deps mainRes acts blobs trees = none) := by
  constructor
  · intro hts t hsome
    rw [withDependencies, getTainted, hts] at hsome
    simp only [Option.map] at hsome
    by_cases hall : deps.all (fun d => decide (d.tainted ⊆ ts.toFinset ∪ rt)) = true
    · rw [if_pos hall] at hsome
      have hsub : ∀ d ∈ deps, d.tainted ⊆ ts.toFinset ∪ rt := by
        intro d hd
        have := (List.all_eq_true.mp hall) d hd
        exact of_decide_eq_true this
      match mainRes with
      | some (.result a r p c) =>
        cases hsome
        exact ⟨rfl, hsub⟩
      | none => cases hsome
      | some .null => cases hsome
      | some (.boolE _) => cases hsome
      | some (.numE _) => cases hsome
      | some (.strE _) => cases hsome
      | some (.art _) => cases hsome
      | some (.nodeValue _ _ _ _) => cases hsome
      | some (.nodeAbstract _ _ _) => cases hsome
      | some (.nameNamed _ _ _ _) => cases hsome
      | some (.nameAnon _ _) => cases hsome
      | some (.list _) => cases hsome
      | some (.map _) => cases hsome
    · rw [if_neg hall] at hsome
      cases hsome
  · intro hts hbad
    rw [withDependencies, getTainted, hts]
    simp only [Option.map]
    obtain ⟨d, hd, hnsub⟩ := hbad
    have hall : ¬ deps.all (fun d => decide (d.tainted ⊆ ts.toFinset ∪ rt)) = true := by
      intro hall
      exact hnsub (of_decide_eq_true ((List.all_eq_true.mp hall) d hd))
    rw [if_neg hall]

/-- C3 witness: a concrete successful application whose tainted set is
the stated union and covers its dependency, and a concrete failing
application whose dependency carries an uncovered taint string. -/
theorem withDependencies_taint_witness :
    (let tr : TargetResult := ⟨.null, .null, .null, true⟩
     let dep : AnalysedTarget := ⟨tr, [], [], [], ∅, {"a"}⟩
     let t : AnalysedTarget :=
       ⟨tr, [], [], [], ∅, (["a"] : List String).toFinset ∪ {"b"}⟩
     t.tainted = (["a"] : List String).toFinset ∪ {"b"} ∧
       ∀ d ∈ [dep], d.tainted ⊆ t.tainted)
    ∧ (let tr : TargetResult := ⟨.null, .null, .null, true⟩
       let dep : AnalysedTarget := ⟨tr, [], [], [], ∅, {"c"}⟩
       withDependencies ∅ (.list [.strE "a"]) {"b"} [dep]
         (some (.result .null .null .null true)) [] [] [] = none) := by
  constructor
  · exact
      (withDependencies_taint ∅ (.list [.strE "a"]) {"b"}
        [⟨⟨.null, .null, .null, true⟩, [], [], [], ∅, {"a"}⟩]
        (some (.result .null .null .null true)) [] [] [] ["a"]).1
        (by rfl) _ (by rfl)
  · refine
      (withDependencies_taint ∅ (.list [.strE "a"]) {"b"}
        [⟨⟨.null, .null, .null, true⟩, [], [], [], ∅, {"c"}⟩]
        (some (.result .null .null .null true)) [] [] [] ["a"]).2
        (by rfl) ?_
    refine ⟨⟨⟨.null, .null, .null, true⟩, [], [], [], ∅, {"c"}⟩, ?_, ?_⟩
    · exact List.mem_cons_self _ _
    · decide

/-! ### C10: value nodes analyse immediately -/

/-- C10: analysing an anonymous target whose target node is a value node
immediately yields an analysed target whose result is the stored target
result and whose action, blob and tree lists, effective-variable set and
tainted set are all empty; no rule lookup or dependency request is
involved. -/
theorem withTargetNode_value (r : TargetResult)
    (ruleMapping : List (String × Expr)) :
    withTargetNode (.value r) ruleMapping =
      .immediate ⟨r, [], [], [], ∅, ∅⟩ := rfl

/-! ### C8: the JSON file map reader -/

/-- C8: the reader fails when the normalised module path is absolute or
begins with `..`; a missing file yields the empty object for a
non-mandatory map and failure for a mandatory one; an existing file must
be readable and parse to a JSON object, which becomes the value, and any
other parse outcome fails. -/
theorem jsonFileReader_contract (kMandatory : Bool)
    (parse : String → Option JSON) (r : FileRoot) (fname module : String) :
    (moduleOutsideRepo (lexNormal module) = true →
      jsonFileReader kMandatory parse (some r) (some fname) module = .fatal)
    ∧ (moduleOutsideRepo (lexNormal module) = false →
        r.isFile (joinPath (lexNormal module) fname) = false →
        jsonFileReader kMandatory parse (some r) (some fname) module =
          (if kMandatory then .fatal else .value (.obj [])))
    ∧ (∀ content es,
        moduleOutsideRepo (lexNormal module) = false →
        r.isFile (joinPath (lexNormal module) fname) = true →
        r.readFile (joinPath (lexNormal module) fname) = some content →
        parse content = some (.obj es) →
        jsonFileReader kMandatory parse (some r) (some fname) module =
          .value (.obj es))
    ∧ (∀ content,
        moduleOutsideRepo (lexNormal module) = false →
        r.isFile (joinPath (lexNormal module) fname) = true →
        r.readFile (joinPath (lexNormal module) fname) = some content →
        (parse content = none ∨
          ∃ j, parse content = some j ∧ ∀ es, j ≠ .obj es) →
        jsonFileReader kMandatory parse (some r) (some fname) module = .fatal)
    ∧ (moduleOutsideRepo (lexNormal module) = false →
        r.isFile (joinPath (lexNormal module) fname) = true →
        r.readFile (joinPath (lexNormal module) fname) = none →
        jsonFileReader kMandatory parse (some r) (some fname) module =
          .fatal) := by
  refine ⟨?_, ?_, ?_, ?_, ?_⟩
  · intro hbad
    simp only [jsonFileReader]
    rw [if_pos hbad]
  · intro hbad hfile
    simp only [jsonFileReader]
    rw [if_neg (by simp [hbad]), if_pos (by simp [hfile])]
  · intro content es hbad hfile hread hparse
    simp only [jsonFileReader]
    rw [if_neg (by simp [hbad]), if_neg (by simp [hfile]), hread]
    simp only [hparse]
  · intro content hbad hfile hread hparse
    simp only [jsonFileReader]
    rw [if_neg (by simp [hbad]), if_neg (by simp [hfile]), hread]
    rcases hparse with hp | ⟨j, hp, hnobj⟩
    · simp only [hp]
    · cases j with
      | obj es => exact absurd rfl (hnobj es)
      | null => simp only [hp]
      | boolJ b => simp only [hp]
      | numJ n => simp only [hp]
      | strJ s => simp only [hp]
      | arr l => simp only [hp]
  · intro hbad hfile hread
    simp only [jsonFileReader]
    rw [if_neg (by simp [hbad]), if_neg (by simp [hfile]), hread]

/-- C8 witness: with a concrete root holding one module file, the reader
is exercised on all five contract branches. -/
theorem jsonFileReader_contract_witness :
    (jsonFileReader true (fun _ => none) (some ⟨fun _ => false, fun _ => none⟩)
        (some "TARGETS") "../esc" = .fatal)
    ∧ (jsonFileReader false (fun _ => none)
        (some ⟨fun _ => false, fun _ => none⟩) (some "TARGETS") "mod" =
          .value (.obj []))
    ∧ (jsonFileReader true (fun _ => some (.obj [("t", .null)]))
        (some ⟨fun p => p == "mod/TARGETS", fun p =>
          if p == "mod/TARGETS" then some "src" else none⟩)
        (some "TARGETS") "mod" = .value (.obj [("t", .null)]))
    ∧ (jsonFileReader true (fun _ => some (.arr []))
        (some ⟨fun p => p == "mod/TARGETS", fun p =>
          if p == "mod/TARGETS" then some "src" else none⟩)
        (some "TARGETS") "mod" = .fatal) := by
  refine ⟨?_, ?_, ?_, ?_⟩
  · exact (jsonFileReader_contract true (fun _ => none)
      ⟨fun _ => false, fun _ => none⟩ "TARGETS" "../esc").1 (by decide)
  · have h := (jsonFileReader_contract false (fun _ => none)
      ⟨fun _ => false, fun _ => none⟩ "TARGETS" "mod").2.1 (by decide) (by decide)
    simpa using h
  · exact ((jsonFileReader_contract true (fun _ => some (.obj [("t", .null)]))
      ⟨fun p => p == "mod/TARGETS", fun p =>
        if p == "mod/TARGETS" then some "src" else none⟩
      "TARGETS" "mod").2.2.1 "src" [("t", .null)] (by decide) (by decide)
      (by decide) rfl)
  · exact ((jsonFileReader_contract true (fun _ => some (.arr []))
      ⟨fun p => p == "mod/TARGETS", fun p =>
        if p == "mod/TARGETS" then some "src" else none⟩
      "TARGETS" "mod").2.2.2.1 "src" (by decide) (by decide) (by decide)
      (Or.inr ⟨.arr [], rfl, by intro es h; cases h⟩))

/-! ### C5: the `TREE` dot special case -/

theorem treeLoop_dot_error :
    ∀ (rest : List (String × Expr)) (acc : List (String × ArtifactDesc)),
      (∃ e ∈ rest, lexNormal e.1 = "." ∨ lexNormal e.1 = "") →
      ∃ msg, treeLoop true rest acc = .error msg := by
  intro rest
  induction rest with
  | nil =>
    intro acc h
    obtain ⟨e, he, _⟩ := h
    cases he
  | cons hd tl ih =>
    intro acc h
    obtain ⟨p, a⟩ := hd
    match hart : artOf a with
    | none =>
      exact ⟨"TREE argument has to be a map of artifacts",
        by simp [treeLoop, hart]⟩
    | some ar =>
      by_cases hdotp : lexNormal p = "." ∨ lexNormal p = ""
      · refine ⟨"input path '.' or '' for TREE is only allowed for trees with single input artifact", ?_⟩
        simp [treeLoop, hart, hdotp]
      · obtain ⟨e, he, hdote⟩ := h
        rcases List.mem_cons.mp he with he | he
        · rw [he] at hdote
          exact absurd hdote hdotp
        · obtain ⟨msg, hmsg⟩ := ih (insertIfAbsent acc (lexNormal p) ar)
            ⟨e, he, hdote⟩
          refine ⟨msg, ?_⟩
          simp only [treeLoop, hart]
          rw [if_neg hdotp]
          exact hmsg

/-- C5: `TREE` on a single-entry map whose key normalises to `"."` or
`""` returns the entry's artifact unchanged when it is a tree artifact
and raises an evaluation error otherwise; a key normalising to `"."` or
`""` inside a map of more than one entry always raises an evaluation
error. -/
theorem treePrim_dot_special (k : String) (a : Expr)
    (hdot : lexNormal k = "." ∨ lexNormal k = "") :
    (isTreeArtifact a = true → treePrim (.map [(k, a)]) = .ok (.special a))
    ∧ (isTreeArtifact a = false →
        ∃ msg, treePrim (.map [(k, a)]) = .error msg)
    ∧ (∀ m : List (String × Expr), 1 < m.length → (k, a) ∈ m →
        ∃ msg, treePrim (.map m) = .error msg) := by
  refine ⟨?_, ?_, ?_⟩
  · intro htree
    cases a with
    | art ad =>
      cases ad with
      | tree tid =>
        rcases hdot with hd | hd <;>
          simp [treePrim, treeLoop, artOf, hd, isTreeArtifact]
      | localArt path repo => simp [isTreeArtifact] at htree
      | known d sz ot => simp [isTreeArtifact] at htree
      | action aid op => simp [isTreeArtifact] at htree
    | null => simp [isTreeArtifact] at htree
    | boolE b => simp [isTreeArtifact] at htree
    | numE n => simp [isTreeArtifact] at htree
    | strE s => simp [isTreeArtifact] at htree
    | result x y z c => simp [isTreeArtifact] at htree
    | nodeValue x y z c => simp [isTreeArtifact] at htree
    | nodeAbstract t sf tf => simp [isTreeArtifact] at htree
    | nameNamed rp md tg rf => simp [isTreeArtifact] at htree
    | nameAnon rm tn => simp [isTreeArtifact] at htree
    | list l => simp [isTreeArtifact] at htree
    | map mm => simp [isTreeArtifact] at htree
  · intro hnottree
    match hart : artOf a with
    | none =>
      refine ⟨"TREE argument has to be a map of artifacts", ?_⟩
      simp [treePrim, treeLoop, hart]
    | some ar =>
      refine ⟨"input path '.' or '' for TREE must be tree artifact", ?_⟩
      rcases hdot with hd | hd <;>
        simp [treePrim, treeLoop, hart, hd, hnottree]
  · intro m hlen hmem
    obtain ⟨msg, hmsg⟩ := treeLoop_dot_error m []
      ⟨(k, a), hmem, hdot⟩
    refine ⟨msg, ?_⟩
    have hdec : decide (m.length > 1) = true := decide_eq_true hlen
    simp [treePrim, hdec, hmsg]

/-- C5 witness: the special case on `{".": tree}`, the error on a
non-tree artifact, and the error with a second entry present. -/
theorem treePrim_dot_special_witness :
    (treePrim (.map [(".", .art (.tree "tid"))]) =
      .ok (.special (.art (.tree "tid"))))
    ∧ (∃ msg, treePrim (.map [(".", .art (.localArt "f" "r"))]) = .error msg)
    ∧ (∃ msg, treePrim (.map [(".", .art (.tree "tid")),
        ("a", .art (.tree "tid2"))]) = .error msg) := by
  refine ⟨?_, ?_, ?_⟩
  · exact (treePrim_dot_special "." (.art (.tree "tid"))
      (Or.inl (by decide))).1 (by decide)
  · exact (treePrim_dot_special "." (.art (.localArt "f" "r"))
      (Or.inl (by decide))).2.1 (by decide)
  · exact (treePrim_dot_special "." (.art (.tree "tid"))
      (Or.inl (by decide))).2.2
      [(".", .art (.tree "tid")), ("a", .art (.tree "tid2"))]
      (by decide) (List.mem_cons_self _ _)

/-! ### C9: duplicate normalised paths in `TREE` -/

theorem lookupStr_append {α : Type} (l₁ l₂ : List (String × α)) (p : String) :
    lookupStr (l₁ ++ l₂) p =
      (match lookupStr l₁ p with
       | some v => some v
       | none => lookupStr l₂ p) := by
  induction l₁ with
  | nil => simp [lookupStr]
  | cons hd tl ih =>
    obtain ⟨k, v⟩ := hd
    by_cases h : k = p
    · simp [lookupStr, h]
    · simp only [List.cons_append, lookupStr, if_neg h]
      exact ih

theorem lookupStr_none_iff {α : Type} :
    ∀ (l : List (String × α)) (k : String),
      lookupStr l k = none ↔ k ∉ l.map Prod.fst := by
  intro l
  induction l with
  | nil =>
    intro k
    simp [lookupStr]
  | cons hd tl ih =>
    intro k
    obtain ⟨k2, v⟩ := hd
    by_cases h : k2 = k
    · subst h
      simp [lookupStr]
    · rw [lookupStr, if_neg h, ih k]
      simp only [List.map_cons, List.mem_cons]
      constructor
      · intro hk hmem
        rcases hmem with hmem | hmem
        · exact h hmem.symm
        · exact hk hmem
      · intro hk hmem
        exact hk (Or.inr hmem)

theorem contains_iff_mem_strings (l : List String) (k : String) :
    l.contains k = true ↔ k ∈ l := List.elem_iff

theorem lookupStr_insertIfAbsent (acc : List (String × ArtifactDesc))
    (k : String) (a : ArtifactDesc) (p : String) :
    lookupStr (insertIfAbsent acc k a) p =
      (match lookupStr acc p with
       | some v => some v
       | none => if k = p then some a else none) := by
  rw [insertIfAbsent]
  by_cases hc : (acc.map Prod.fst).contains k = true
  · rw [if_pos hc]
    match hl : lookupStr acc p with
    | some v => rfl
    | none =>
      have hk : k ∈ acc.map Prod.fst := (contains_iff_mem_strings _ _).mp hc
      have hp : p ∉ acc.map Prod.fst := (lookupStr_none_iff acc p).mp hl
      have hne : k ≠ p := fun he => hp (he ▸ hk)
      rw [if_neg hne]
  · rw [if_neg hc, lookupStr_append]
    match lookupStr acc p with
    | some v => rfl
    | none => simp [lookupStr]

theorem insertIfAbsent_keys_nodup (acc : List (String × ArtifactDesc))
    (k : String) (a : ArtifactDesc)
    (h : (acc.map Prod.fst).Nodup) :
    ((insertIfAbsent acc k a).map Prod.fst).Nodup := by
  rw [insertIfAbsent]
  by_cases hc : (acc.map Prod.fst).contains k = true
  · rw [if_pos hc]
    exact h
  · rw [if_neg hc, List.map_append]
    rw [List.nodup_append]
    refine ⟨h, by simp, ?_⟩
    intro x hx hmem
    simp only [List.map_cons, List.map_nil, List.mem_singleton] at hmem
    subst hmem
    exact hc ((contains_iff_mem_strings _ _).mpr hx)

theorem treeLoop_build (s : Bool) :
    ∀ (m : List (String × Expr)) (acc : List (String × ArtifactDesc)),
      (∀ e ∈ m, (artOf e.2).isSome = true) →
      (∀ e ∈ m, ¬(lexNormal e.1 = "." ∨ lexNormal e.1 = "")) →
      (acc.map Prod.fst).Nodup →
      ∃ entries, treeLoop s m acc = .ok (.built entries) ∧
        (entries.map Prod.fst).Nodup ∧
        ∀ p, lookupStr entries p =
          (match lookupStr acc p with
           | some v => some v
           | none =>
             match m.find? (fun e => lexNormal e.1 == p) with
             | some e => artOf e.2
             | none => none) := by
  intro m
  induction m with
  | nil =>
    intro acc _ _ hnd
    refine ⟨acc, by simp [treeLoop], hnd, ?_⟩
    intro p
    simp only [List.find?]
    match lookupStr acc p with
    | some v => rfl
    | none => rfl
  | cons hd tl ih =>
    intro acc hart hdot hnd
    obtain ⟨q, b⟩ := hd
    have hb : (artOf b).isSome = true := hart (q, b) (List.mem_cons_self _ _)
    match hab : artOf b with
    | none =>
      rw [hab] at hb
      simp at hb
    | some ab =>
      have hq : ¬(lexNormal q = "." ∨ lexNormal q = "") :=
        hdot (q, b) (List.mem_cons_self _ _)
      obtain ⟨entries, he, hnd2, hlook⟩ :=
        ih (insertIfAbsent acc (lexNormal q) ab)
          (fun e hx => hart e (List.mem_cons_of_mem _ hx))
          (fun e hx => hdot e (List.mem_cons_of_mem _ hx))
          (insertIfAbsent_keys_nodup acc (lexNormal q) ab hnd)
      refine ⟨entries, ?_, hnd2, ?_⟩
      · simp only [treeLoop, hab]
        rw [if_neg hq]
        exact he
      · intro p
        rw [hlook p, lookupStr_insertIfAbsent]
        by_cases hqp : lexNormal q = p
        · have hfind : List.find? (fun e => lexNormal e.1 == p)
              ((q, b) :: tl) = some (q, b) :=
            List.find?_cons_of_pos _ (by simp [hqp])
          rw [hfind]
          match hl : lookupStr acc p with
          | some v => rfl
          | none =>
            rw [if_pos hqp]
            exact hab.symm
        · have hfind : List.find? (fun e => lexNormal e.1 == p)
              ((q, b) :: tl) = List.find? (fun e => lexNormal e.1 == p) tl :=
            List.find?_cons_of_neg _ (by simp [hqp])
          rw [hfind]
          match hl : lookupStr acc p with
          | some v => rfl
          | none =>
            rw [if_neg hqp]

/-- C9: when a `TREE` argument map (iterated in its key-sorted order) has
only artifact values, none of which sits at a key normalising to `"."` or
`""`, no tree conflict is detected, and two distinct keys share the same
lexically normalised path, then `TREE` reports no error; the built tree
has duplicate-free normalised paths, and each normalised path is bound to
the artifact of the first entry in iteration order that normalises to it
— later entries with the same normalised path are silently dropped. -/
theorem treePrim_duplicate_normalised (m : List (String × Expr))
    (_hsorted : m.Sorted keyLT)
    (hart : ∀ e ∈ m, (artOf e.2).isSome = true)
    (hdot : ∀ e ∈ m, ¬(lexNormal e.1 = "." ∨ lexNormal e.1 = ""))
    (hconf : treeConflict m = none)
    (_hdup : ∃ e₁ ∈ m, ∃ e₂ ∈ m, e₁.1 ≠ e₂.1 ∧
      lexNormal e₁.1 = lexNormal e₂.1) :
    ∃ entries, treePrim (.map m) = .ok (.built entries) ∧
      (entries.map Prod.fst).Nodup ∧
      ∀ p, lookupStr entries p =
        (match m.find? (fun e => lexNormal e.1 == p) with
         | some e => artOf e.2
         | none => none) := by
  obtain ⟨entries, he, hnd, hlook⟩ :=
    treeLoop_build (decide (m.length > 1)) m [] hart hdot (by simp)
  refine ⟨entries, ?_, hnd, ?_⟩
  · simp only [treePrim, he, hconf]
  · intro p
    have h := hlook p
    simpa [lookupStr] using h

/-- C9 witness: the keys `./a` and `a` both normalise to `a`; `TREE`
succeeds and binds `a` to the artifact of `./a`, the first of the two in
key-sorted order. -/
theorem treePrim_duplicate_normalised_witness :
    ∃ entries,
      treePrim (.map [("./a", .art (.tree "t1")), ("a", .art (.tree "t2"))]) =
        .ok (.built entries) ∧
      lookupStr entries "a" = some (.tree "t1") := by
  have hsorted :
      ([("./a", Expr.art (.tree "t1")), ("a", Expr.art (.tree "t2"))] :
        List (String × Expr)).Sorted keyLT := by
    refine List.Pairwise.cons ?_ (List.Pairwise.cons (by simp) List.Pairwise.nil)
    intro b hb
    rcases List.mem_cons.mp hb with hb | hb
    · rw [hb]
      exact (strLt_iff "./a" "a").mp (by decide)
    · cases hb
  obtain ⟨entries, he, hnd, hlook⟩ :=
    treePrim_duplicate_normalised
      [("./a", .art (.tree "t1")), ("a", .art (.tree "t2"))]
      hsorted (by decide) (by decide) (by decide)
      ⟨("./a", .art (.tree "t1")), List.mem_cons_self _ _,
        ("a", .art (.tree "t2")),
        List.mem_cons_of_mem _ (List.mem_cons_self _ _),
        by decide, by decide⟩
  refine ⟨entries, he, ?_⟩
  rw [hlook "a"]
  decide

/-! ### C4: the `ACTION` output and input contract -/

theorem insertStr_perm (s : String) :
    ∀ l : List String, (insertStr s l).Perm (s :: l) := by
  intro l
  induction l with
  | nil => simp [insertStr]
  | cons x rest ih =>
    simp only [insertStr]
    by_cases h : strLt x s = true
    · rw [if_pos h]
      exact (ih.cons x).trans (List.Perm.swap s x rest)
    · rw [if_neg h]

theorem sortStrings_perm : ∀ l : List String, (sortStrings l).Perm l := by
  intro l
  induction l with
  | nil => exact List.Perm.refl _
  | cons x rest ih =>
    have h : sortStrings (x :: rest) = insertStr x (sortStrings rest) := rfl
    rw [h]
    exact (insertStr_perm x (sortStrings rest)).trans (ih.cons x)

/-- C4: whenever the `ACTION` primitive does not raise an evaluation
error, the evaluated `outs` and `out_dirs` were lists of strings, their
union is non-empty, they are disjoint, and the inputs map carries no
tree-prefix conflict — equivalently, violating any of these conditions
raises an evaluation error. -/
theorem actionPrim_contract (rt : Finset String) (aid : String)
    (inputsExp outsExp outDirsExp cmdExp envExp mayFailExp failMsgExp
      noCacheExp : Expr) (spec : ActionSpec) (outMap : Expr)
    (hok : actionPrim rt aid inputsExp outsExp outDirsExp cmdExp envExp
      mayFailExp failMsgExp noCacheExp = .ok (spec, outMap)) :
    ∃ outs dirs inputEntries,
      readActionOutputExpr outsExp "outs" = .ok outs ∧
      readActionOutputExpr outDirsExp "out_dirs" = .ok dirs ∧
      (outs ≠ [] ∨ dirs ≠ []) ∧
      (∀ o ∈ outs, o ∉ dirs) ∧
      inputsExp = .map inputEntries ∧
      treeConflict inputEntries = none := by
  cases inputsExp with
  | null => simp [actionPrim] at hok
  | boolE b => simp [actionPrim] at hok
  | numE n => simp [actionPrim] at hok
  | strE s => simp [actionPrim] at hok
  | art a => simp [actionPrim] at hok
  | result x y z c => simp [actionPrim] at hok
  | nodeValue x y z c => simp [actionPrim] at hok
  | nodeAbstract t sf tf => simp [actionPrim] at hok
  | nameNamed rp md tg rf => simp [actionPrim] at hok
  | nameAnon rm tn => simp [actionPrim] at hok
  | list l => simp [actionPrim] at hok
  | map ie =>
    simp only [actionPrim] at hok
    by_cases h1 : (ie.all fun p => (artOf p.2).isSome) = true
    · rw [if_neg (by simp [h1])] at hok
      cases hconf : treeConflict ie with
      | some c =>
        simp only [hconf] at hok
        cases hok
      | none =>
        simp only [hconf] at hok
        cases houts : readActionOutputExpr outsExp "outs" with
        | error e =>
          simp only [houts] at hok
          cases hok
        | ok outs =>
          simp only [houts] at hok
          cases hdirs : readActionOutputExpr outDirsExp "out_dirs" with
          | error e =>
            simp only [hdirs] at hok
            cases hok
          | ok dirs =>
            simp only [hdirs] at hok
            by_cases hempty : (outs.isEmpty && dirs.isEmpty) = true
            · rw [if_pos hempty] at hok
              cases hok
            · rw [if_neg hempty] at hok
              by_cases hdisj :
                  ((sortStrings outs).any fun o =>
                    (sortStrings dirs).contains o) = true
              · rw [if_pos hdisj] at hok
                cases hok
              · refine ⟨outs, dirs, ie, rfl, rfl, ?_, ?_, rfl, hconf⟩
                · by_contra hboth
                  push_neg at hboth
                  obtain ⟨ho, hd⟩ := hboth
                  apply hempty
                  rw [ho, hd]
                  rfl
                · intro o ho hod
                  apply hdisj
                  rw [List.any_eq_true]
                  refine ⟨o, ?_, ?_⟩
                  · exact ((sortStrings_perm outs).mem_iff).mpr ho
                  · exact (contains_iff_mem_strings _ _).mpr
                      (((sortStrings_perm dirs).mem_iff).mpr hod)
    · rw [if_pos (by simp [h1])] at hok
      cases hok

/-- C4 witness: a concrete successful `ACTION` whose outputs satisfy the
contract. -/
theorem actionPrim_contract_witness :
    ∃ outs dirs inputEntries,
      readActionOutputExpr (.list [.strE "out"]) "outs" = .ok outs ∧
      readActionOutputExpr (.list []) "out_dirs" = .ok dirs ∧
      (outs ≠ [] ∨ dirs ≠ []) ∧
      (∀ o ∈ outs, o ∉ dirs) ∧
      (Expr.map [("in", .art (.localArt "in" "r"))]) = .map inputEntries ∧
      treeConflict inputEntries = none := by
  refine actionPrim_contract ∅ "aid" (.map [("in", .art (.localArt "in" "r"))])
    (.list [.strE "out"]) (.list []) (.list [.strE "cp"]) (.map [])
    (.list []) (.strE "action failed") (.list [])
    ⟨["out"], [], ["cp"], .map [], Option.none, false,
      .map [("in", .art (.localArt "in" "r"))]⟩
    (mkMap [("out", .art (.action "aid" "out"))]) ?_
  rfl

/-! ### C1: map hashes ignore insertion order -/

/-- C1: two expression maps built from the same entries hash identically
whatever the insertion order; the hash of a map is the digest fed `"{"`
and then, per entry in ascending key order, the digest of the key
followed by the value's hash; the hash of a list is the digest fed `"["`
followed by the child hashes in list order. -/
theorem toHash_map_insertion_order (run : String → String)
    (nodeId : Expr → String) (l₁ l₂ : List (String × Expr))
    (hperm : l₁.Perm l₂) (hnd : (l₁.map Prod.fst).Nodup) :
    toHash run nodeId (mkMap l₁) = toHash run nodeId (mkMap l₂)
    ∧ (∃ es, es.Perm l₁ ∧ es.Sorted keyLT ∧
        toHash run nodeId (mkMap l₁) =
          run ("\x7b" ++ hashOfEntries run nodeId es))
    ∧ (∀ l : List Expr,
        toHash run nodeId (.list l) =
          run ("[" ++ hashOfList run nodeId l)) := by
  refine ⟨?_, ?_, ?_⟩
  · rw [mkMap, mkMap, canonEntries_perm_eq l₁ l₂ hperm hnd]
  · obtain ⟨hs, hp⟩ := canonEntries_sorted_perm l₁ hnd
    exact ⟨canonEntries l₁, hp, hs, by rw [mkMap]; simp [toHash]⟩
  · intro l
    simp [toHash]

/-- C1 witness: `{x:1, y:2}` and `{y:2, x:1}` hash identically (with the
identity function standing in for the external digest primitive). -/
theorem toHash_map_insertion_order_witness :
    toHash (fun s => s) (fun _ => "")
        (mkMap [("x", .numE (.finite 1)), ("y", .numE (.finite 2))]) =
      toHash (fun s => s) (fun _ => "")
        (mkMap [("y", .numE (.finite 2)), ("x", .numE (.finite 1))]) :=
  (toHash_map_insertion_order (fun s => s) (fun _ => "")
    [("x", .numE (.finite 1)), ("y", .numE (.finite 2))]
    [("y", .numE (.finite 2)), ("x", .numE (.finite 1))]
    (List.Perm.swap ("y", Expr.numE (Num.finite 2))
      ("x", Expr.numE (Num.finite 1)) [])
    (by decide)).1

/-! ### C6: JSON round trip -/

theorem noDupKeys_iff : ∀ l : List String, noDupKeys l = true ↔ l.Nodup := by
  intro l
  induction l with
  | nil => simp [noDupKeys]
  | cons k rest ih =>
    simp only [noDupKeys, Bool.and_eq_true, Bool.not_eq_true', List.nodup_cons]
    constructor
    · intro ⟨h1, h2⟩
      refine ⟨?_, ih.mp h2⟩
      intro hmem
      rw [(contains_iff_mem_strings rest k).mpr hmem] at h1
      cases h1
    · intro ⟨h1, h2⟩
      refine ⟨?_, ih.mpr h2⟩
      match hc : rest.contains k with
      | false => rfl
      | true => exact absurd ((contains_iff_mem_strings rest k).mp hc) h1

theorem canonJSONList_jsonOfList (nodeId : Expr → String) (mode : JsonMode) :
    ∀ es : List Expr,
      canonJSONList (jsonOfList nodeId mode es) =
        es.map (fun e => canonJSON (exprToJson nodeId mode e)) := by
  intro es
  induction es with
  | nil => simp [jsonOfList, canonJSONList]
  | cons e rest ih => simp [jsonOfList, canonJSONList, ih]

theorem canonJSONEntries_jsonOfEntries (nodeId : Expr → String)
    (mode : JsonMode) :
    ∀ es : List (String × Expr),
      canonJSONEntries (jsonOfEntries nodeId mode es) =
        es.map (fun e => (e.1, canonJSON (exprToJson nodeId mode e.2))) := by
  intro es
  induction es with
  | nil => simp [jsonOfEntries, canonJSONEntries]
  | cons e rest ih =>
    obtain ⟨k, v⟩ := e
    simp [jsonOfEntries, canonJSONEntries, ih]

mutual

theorem roundTripJson (nodeId : Expr → String) :
    ∀ j : JSON, wfJSON j = true →
      ∃ e, fromJson j = some e ∧
        canonJSON (exprToJson nodeId .serializeAll e) = canonJSON j
  | .null, _ => ⟨.null, by simp [fromJson], rfl⟩
  | .boolJ b, _ => ⟨.boolE b, by simp [fromJson], rfl⟩
  | .numJ n, _ => ⟨.numE n, by simp [fromJson], rfl⟩
  | .strJ s, _ => ⟨.strE s, by simp [fromJson], rfl⟩
  | .arr l, hwf => by
    have hl : wfList l = true := by simpa [wfJSON] using hwf
    obtain ⟨es, hes, hcanon⟩ := roundTripList nodeId l hl
    refine ⟨.list es, ?_, ?_⟩
    · simp [fromJson, hes]
    · simp only [exprToJson, canonJSON]
      rw [hcanon]
  | .obj m, hwf => by
    have h1 : noDupKeys (m.map Prod.fst) = true ∧ wfEntries m = true := by
      simpa [wfJSON, Bool.and_eq_true] using hwf
    obtain ⟨es, hes, hkeys, hcanon⟩ := roundTripEntries nodeId m h1.2
    refine ⟨mkMap es, ?_, ?_⟩
    · simp [fromJson, hes, mkMap]
    · simp only [mkMap, exprToJson, canonJSON]
      rw [canonJSONEntries_jsonOfEntries]
      have hnd_es : (es.map Prod.fst).Nodup := by
        rw [hkeys]
        exact (noDupKeys_iff _).mp h1.1
      have hperm : (canonEntries es).Perm es :=
        (canonEntries_sorted_perm es hnd_es).2
      have hpg : ((canonEntries es).map
          (fun e => (e.1, canonJSON (exprToJson nodeId .serializeAll e.2)))).Perm
          (es.map
            (fun e => (e.1, canonJSON (exprToJson nodeId .serializeAll e.2)))) :=
        hperm.map _
      have hkeysg : (((canonEntries es).map
          (fun e => (e.1, canonJSON (exprToJson nodeId .serializeAll e.2)))).map
            Prod.fst).Nodup := by
        have hfst : ((canonEntries es).map
            (fun e => (e.1, canonJSON (exprToJson nodeId .serializeAll e.2)))).map
              Prod.fst = (canonEntries es).map Prod.fst := by
          rw [List.map_map]
          rfl
        rw [hfst]
        exact (List.Perm.nodup_iff (hperm.map Prod.fst)).mpr hnd_es
      rw [canonEntries_perm_eq _ _ hpg hkeysg]
      have hmap_eq : es.map
          (fun e => (e.1, canonJSON (exprToJson nodeId .serializeAll e.2))) =
          canonJSONEntries m := by
        rw [← hcanon, canonJSONEntries_jsonOfEntries]
      rw [hmap_eq]

theorem roundTripList (nodeId : Expr → String) :
    ∀ l : List JSON, wfList l = true →
      ∃ es, fromJsonList l = some es ∧
        canonJSONList (jsonOfList nodeId .serializeAll es) = canonJSONList l
  | [], _ => ⟨[], by simp [fromJsonList], by simp [jsonOfList, canonJSONList]⟩
  | j :: rest, hwf => by
    have h1 : wfJSON j = true ∧ wfList rest = true := by
      simpa [wfList, Bool.and_eq_true] using hwf
    obtain ⟨e, he, hce⟩ := roundTripJson nodeId j h1.1
    obtain ⟨es, hes, hces⟩ := roundTripList nodeId rest h1.2
    refine ⟨e :: es, ?_, ?_⟩
    · simp [fromJsonList, he, hes]
    · simp only [jsonOfList, canonJSONList]
      rw [hce, hces]

theorem roundTripEntries (nodeId : Expr → String) :
    ∀ m : List (String × JSON), wfEntries m = true →
      ∃ es, fromJsonEntries m = some es ∧
        es.map Prod.fst = m.map Prod.fst ∧
        canonJSONEntries (jsonOfEntries nodeId .serializeAll es) =
          canonJSONEntries m
  | [], _ => ⟨[], by simp [fromJsonEntries], by simp,
      by simp [jsonOfEntries, canonJSONEntries]⟩
  | (k, v) :: rest, hwf => by
    have h1 : wfJSON v = true ∧ wfEntries rest = true := by
      simpa [wfEntries, Bool.and_eq_true] using hwf
    obtain ⟨e, he, hce⟩ := roundTripJson nodeId v h1.1
    obtain ⟨es, hes, hkeys, hces⟩ := roundTripEntries nodeId rest h1.2
    refine ⟨(k, e) :: es, ?_, ?_, ?_⟩
    · simp [fromJsonEntries, he, hes]
    · simp [hkeys]
    · simp only [jsonOfEntries, canonJSONEntries]
      rw [hce, hces]

end

/-- C6: converting a well-formed JSON value (duplicate-free object keys,
as the parser guarantees, and no non-finite numbers) to an expression and
back yields the same JSON value up to object member order: the canonical
forms (each object sorted by key) coincide. -/
theorem fromJson_toJson_roundtrip (nodeId : Expr → String) (j : JSON)
    (hwf : wfJSON j = true) (_hfin : finiteNums j = true) :
    ∃ e, fromJson j = some e ∧
      canonJSON (exprToJson nodeId .serializeAll e) = canonJSON j :=
  roundTripJson nodeId j hwf

/-- C6 witness: an object given with unsorted members round-trips to a
JSON value with the same members. -/
theorem fromJson_toJson_roundtrip_witness :
    ∃ e, fromJson (.obj [("y", .numJ (.finite 2)), ("x", .boolJ true)]) =
        some e ∧
      canonJSON (exprToJson (fun _ => "") .serializeAll e) =
        canonJSON (.obj [("y", .numJ (.finite 2)), ("x", .boolJ true)]) :=
  fromJson_toJson_roundtrip (fun _ => "")
    (.obj [("y", .numJ (.finite 2)), ("x", .boolJ true)])
    (by simp [wfJSON, wfEntries, noDupKeys])
    (by simp [finiteNums, finiteNumsEntries])

end JustBuild
